import Mathlib

/-!
Shallow embedding of `.github/pin_actions.py`.

The program is a one-shot text rewriter: it scans workflow files line by
line, resolves GitHub action tags to commit hashes through a remote API
(abstracted here as an `Env` of query functions), caches resolutions, and
rewrites the lines.  All text is modelled as `List Char` (the tool only
processes ASCII workflow files; the Python regexes are embedded for the
ASCII character classes).  Machine-level concerns (HTTP, JSON decoding,
logging) are abstracted: every remote query is a function in `Env`
returning `Option` results, with `none` standing for any failed or
malformed response, exactly the value the Python helpers return in those
cases.  Fallible Python code that returns `None` is modelled with
`Option`; the code raises nothing to its callers (every `try` block
swallows its exceptions), so all embedded functions are total.
-/

/-! ## Generic comparator infrastructure

The Python code orders versions with the `semver` package, whose
comparison is lexicographic over (major, minor, patch, prerelease).  We
embed that ordering with `Ordering`-valued comparators and prove the
transitivity facts needed to reason about the maximum-selection loop in
`get_latest_version`. -/

def lexCmp {α : Type} (f : α → α → Ordering) : List α → List α → Ordering
  | [], [] => .eq
  | [], _ :: _ => .lt
  | _ :: _, [] => .gt
  | a :: as, b :: bs =>
    match f a b with
    | .eq => lexCmp f as bs
    | o => o

/-- Lawfulness facts for a comparator: congruence of `eq` on both sides,
transitivity of `lt` and `gt`, and reflexivity. -/
def CmpLawful {α : Type} (f : α → α → Ordering) : Prop :=
  (∀ a b, f a b = .eq → ∀ c, f a c = f b c) ∧
  (∀ a b, f a b = .eq → ∀ c, f c a = f c b) ∧
  (∀ a b c, f a b = .lt → f b c = .lt → f a c = .lt) ∧
  (∀ a b c, f a b = .gt → f b c = .gt → f a c = .gt) ∧
  (∀ a, f a a = .eq)

def cmpThen {α : Type} (f g : α → α → Ordering) (a b : α) : Ordering :=
  match f a b with
  | .eq => g a b
  | o => o

/-! ## Version Comparator (`parse_semver` and the semver package ordering) -/

/-- A prerelease identifier of a semantic version: a numeric identifier or
an alphanumeric one (comparison: numeric sorts below alphanumeric). -/
inductive PreId : Type
  | num (n : Nat)
  | str (s : List Char)
  deriving DecidableEq, Repr

/-- Parsed semantic version, the embedding of `semver.VersionInfo`.  Build
metadata is parsed (its validity affects parse success) but never compared,
as in the semver specification. -/
structure SemVer : Type where
  major : Nat
  minor : Nat
  patch : Nat
  prerelease : List PreId
  build : List (List Char)
  deriving DecidableEq, Repr

def cmpChar (a b : Char) : Ordering := compare a.toNat b.toNat

def cmpCharList : List Char → List Char → Ordering := lexCmp cmpChar

def cmpPreId : PreId → PreId → Ordering
  | .num a, .num b => compare a b
  | .num _, .str _ => .lt
  | .str _, .num _ => .gt
  | .str a, .str b => cmpCharList a b

def cmpPreList : List PreId → List PreId → Ordering := lexCmp cmpPreId

/-- Ordering on prerelease lists as used for whole versions: a version
without prerelease identifiers sorts above any version that has them. -/
def cmpPre : List PreId → List PreId → Ordering
  | [], [] => .eq
  | [], _ :: _ => .gt
  | _ :: _, [] => .lt
  | as, bs => cmpPreList as bs

/-- Semantic-version precedence, the ordering used by the semver package
when the script evaluates `parsed > latest_parsed`. -/
def semverCompare : SemVer → SemVer → Ordering :=
  cmpThen (fun a b => compare a.major b.major)
    (cmpThen (fun a b => compare a.minor b.minor)
      (cmpThen (fun a b => compare a.patch b.patch)
        (fun a b => cmpPre a.prerelease b.prerelease)))

def semverGt (a b : SemVer) : Prop := semverCompare a b = .gt

instance (a b : SemVer) : Decidable (semverGt a b) := by
  unfold semverGt; infer_instance

/-! ## Semantic-version parsing (`parse_semver`)

Embedding of `parse_semver` from the script, which strips an optional
leading `v` and calls `semver.VersionInfo.parse`.  That parser accepts
exactly `MAJOR.MINOR.PATCH` with optional `-PRERELEASE` and `+BUILD`
suffixes, numeric identifiers without leading zeros, and returns a
failure (modelled as `none`) otherwise; the script catches the
`ValueError` and reports failure, so no exception propagates. -/

def natOfDigits (ds : List Char) : Nat :=
  ds.foldl (fun a c => a * 10 + (c.toNat - 48)) 0

/-- Parse a numeric identifier (`0|[1-9][0-9]*`): digits with no leading
zero.  Returns the value and the unconsumed rest. -/
def parseNumId (cs : List Char) : Option (Nat × List Char) :=
  let ds := cs.takeWhile Char.isDigit
  if ds.isEmpty then none
  else if ds.head? = some '0' ∧ ds.length > 1 then none
  else some (natOfDigits ds, cs.drop ds.length)

/-- Characters allowed in prerelease and build identifiers. -/
def isIdChar (c : Char) : Bool :=
  c.isAlpha || c.isDigit || c = '-'

/-- Split a character list on the dot separator, keeping empty chunks. -/
def splitOnDot : List Char → List (List Char)
  | [] => [[]]
  | c :: rest =>
    if c = '.' then [] :: splitOnDot rest
    else
      match splitOnDot rest with
      | [] => [[c]]
      | chunk :: chunks => (c :: chunk) :: chunks

/-- Validate one prerelease identifier: nonempty run of identifier
characters, and an all-digit identifier has no leading zero. -/
def mkPreId (cs : List Char) : Option PreId :=
  if cs.isEmpty then none
  else if ¬ cs.all isIdChar then none
  else if cs.all Char.isDigit then
    if cs.head? = some '0' ∧ cs.length > 1 then none
    else some (.num (natOfDigits cs))
  else some (.str cs)

/-- Validate one build identifier: nonempty run of identifier characters. -/
def mkBuildId (cs : List Char) : Option (List Char) :=
  if cs.isEmpty then none
  else if ¬ cs.all isIdChar then none
  else some cs

/-- Parse the optional `-PRERELEASE` and `+BUILD` tail of a version. -/
def parseSemverTail (major minor patch : Nat) : List Char → Option SemVer
  | [] => some ⟨major, minor, patch, [], []⟩
  | '-' :: r =>
    let preChunk := r.takeWhile (fun c => c ≠ '+')
    let rest := r.drop preChunk.length
    match (splitOnDot preChunk).mapM mkPreId with
    | none => none
    | some pre =>
      match rest with
      | [] => some ⟨major, minor, patch, pre, []⟩
      | '+' :: r2 =>
        match (splitOnDot r2).mapM mkBuildId with
        | none => none
        | some build => some ⟨major, minor, patch, pre, build⟩
      | _ => none
  | '+' :: r =>
    match (splitOnDot r).mapM mkBuildId with
    | none => none
    | some build => some ⟨major, minor, patch, [], build⟩
  | _ => none

/-- Embedding of `semver.VersionInfo.parse` on a version string without
the leading `v`. -/
def parseSemverCore (cs : List Char) : Option SemVer := do
  let (major, r1) ← parseNumId cs
  match r1 with
  | '.' :: r2 =>
    let (minor, r3) ← parseNumId r2
    match r3 with
    | '.' :: r4 =>
      let (patch, r5) ← parseNumId r4
      parseSemverTail major minor patch r5
    | _ => none
  | _ => none

/-- Embedding of `parse_semver`: strip a leading `v` if present (the
Python code tests `version.startswith('v')` and takes `version[1:]`),
then strict semver parsing; `none` is the `(False, None)` failure
return. -/
def parse_semver (version_tag : String) : Option SemVer :=
  match version_tag.data with
  | 'v' :: rest => parseSemverCore rest
  | cs => parseSemverCore cs

/-! ## Hosting API Client abstraction and Cache Store

`Env` abstracts the four GitHub REST queries the script issues through
`fetch_json`.  Each field returns `none` wherever `fetch_json` returns
`None` (non-200 response, network failure, malformed JSON) or a needed
key is absent from the response, mirroring the `None` checks in
`get_tag_sha`, `get_exact_tag_match` and `get_latest_release_tag`.
Responses are modelled by the data the script extracts from them:
release objects by their `tag_name` field, tag objects by their `name`
field, the ref object by its commit sha. -/

structure Env : Type where
  /-- The releases list endpoint: tag names of all releases, in order. -/
  releases : String → Option (List String)
  /-- The tag-reference endpoint: the sha for a repo and tag. -/
  tagSha : String → String → Option String
  /-- The tags list endpoint: tag names of all tags. -/
  tagsList : String → Option (List String)
  /-- The latest-release endpoint: the latest release tag name. -/
  latestRelease : String → Option String

/-- The global `cache` dict: an association list from keys
`"repo@tag"` to `(sha, full_version)` pairs. -/
abbrev Cache : Type := List (String × String × String)

def cacheFind : Cache → String → Option (String × String)
  | [], _ => none
  | (k, v) :: rest, key => if k = key then some v else cacheFind rest key

def cacheSet : Cache → String → String × String → Cache
  | [], key, v => [(key, v)]
  | (k, w) :: rest, key, v =>
    if k = key then (key, v) :: rest else (k, w) :: cacheSet rest key v

/-- Embedding of `get_cached_details`: a cached entry is returned only
when `check_for_updates` is false and the key is present. -/
def get_cached_details (cache : Cache) (repo tag : String)
    (check_for_updates : Bool) : Option (String × String) :=
  if check_for_updates then none else cacheFind cache (repo ++ "@" ++ tag)

/-- Embedding of `update_cache`: unconditional overwrite of the entry. -/
def update_cache (cache : Cache) (repo tag sha full_version : String) : Cache :=
  cacheSet cache (repo ++ "@" ++ tag) (sha, full_version)

/-- Embedding of `get_all_releases`: `fetch_json(...) or []`, so a failed
fetch degrades to the empty list. -/
def get_all_releases (env : Env) (repo : String) : List String :=
  (env.releases repo).getD []

/-- One iteration of the release loop in `get_latest_version`: keep the
accumulator unless the release tag parses, has the same major number, and
strictly exceeds the best so far (or is the first candidate). -/
def latestStep (cur : SemVer) (st : String × Option SemVer) (tag_name : String) :
    String × Option SemVer :=
  match parse_semver tag_name with
  | none => st
  | some parsed =>
    if parsed.major ≠ cur.major then st
    else
      match st.2 with
      | none => (tag_name, some parsed)
      | some latest_parsed =>
        if semverGt parsed latest_parsed then (tag_name, some parsed) else st

/-- Embedding of `get_latest_version`: find the release tag with the
highest semver precedence in the same major series as `current_tag`,
falling back to `current_tag` when the input does not parse, the
releases list is empty or unreachable, or no release qualifies. -/
def get_latest_version (env : Env) (repo current_tag : String) : String :=
  match parse_semver current_tag with
  | none => current_tag
  | some parsed_current =>
    let releases := get_all_releases env repo
    if releases.isEmpty then current_tag
    else (releases.foldl (latestStep parsed_current) (current_tag, none)).1

/-- Embedding of `get_tag_sha`: the ref lookup, `none` for a failed
fetch or a response without the object/sha fields. -/
def get_tag_sha (env : Env) (repo tag : String) : Option String :=
  env.tagSha repo tag

/-- Embedding of `get_exact_tag_match`: scan the tags list for an entry
equal to `tag`.  Every path of the Python function returns `tag` itself:
on fetch failure, on an exact match, and after an unsuccessful scan. -/
def get_exact_tag_match (env : Env) (repo tag : String) : String :=
  match env.tagsList repo with
  | none => tag
  | some tags_data =>
    if tags_data.isEmpty then tag
    else if tags_data.any (fun tag_info => tag_info = tag) then tag
    else tag

/-- Embedding of `get_latest_release_tag`: for short tags (`v` plus at
most two more characters) consult the latest-release endpoint; returns
the latest release tag when it extends `tag`, else `tag`. -/
def get_latest_release_tag (env : Env) (repo tag : String) : String :=
  if ¬ ("v".data.isPrefixOf tag.data) ∨ tag.data.length > 3 then tag
  else
    match env.latestRelease repo with
    | none => tag
    | some latest_tag =>
      if ¬ (tag.data.isPrefixOf latest_tag.data) then tag
      else latest_tag

/-- Embedding of `fetch_tag_details`.  Returns the resolved
`(sha, full_version)` pair (or `none` for the `None, None` failure
return) together with the cache as left by the call.  The Python
function consults the cache, optionally substitutes the newest
same-major release tag, re-consults the cache for that tag, resolves
the sha, computes the display version, and stores the result. -/
def fetch_tag_details (env : Env) (cache : Cache) (repo tag : String)
    (check_for_updates : Bool) : Option (String × String) × Cache :=
  match get_cached_details cache repo tag check_for_updates with
  | some details => (some details, cache)
  | none =>
    let latest_tag := if check_for_updates then get_latest_version env repo tag else tag
    let second : Option (String × String) :=
      if check_for_updates ∧ latest_tag ≠ tag then
        get_cached_details cache repo latest_tag check_for_updates
      else none
    match second with
    | some details => (some details, cache)
    | none =>
      match get_tag_sha env repo latest_tag with
      | none => (none, cache)
      | some sha =>
        if sha = "" then (none, cache)
        else
          let fv := get_exact_tag_match env repo latest_tag
          let full_version :=
            if fv = latest_tag then get_latest_release_tag env repo latest_tag else fv
          (some (sha, full_version), update_cache cache repo latest_tag sha full_version)

/-! ## Line Rewriter: pattern matching and replacement

The two regexes of the script are embedded as deterministic matchers.
Both patterns are backtracking-free: each greedy run (`[\w-]+`, `\d+`,
`[0-9a-f]{40}`, `\s*`) is followed by a literal outside its character
class, so the maximal run is the only candidate and a failed literal
check cannot be repaired by giving characters back.  `re.search` tries
successive start positions left to right, embedded as a scan over the
suffixes of the line.  Character classes are the ASCII ones (`\w` is
letters, digits and underscore). -/

def isRepoChar (c : Char) : Bool :=
  c.isAlpha || c.isDigit || c = '_' || c = '-'

def isHexLower (c : Char) : Bool :=
  c.isDigit || ('a' ≤ c && c ≤ 'f')

def isPySpace (c : Char) : Bool :=
  c = ' ' || c = '\t' || c = '\n' || c = '\r' || c = '\x0b' || c = '\x0c'

/-- Greedy matcher for `(?:\.\d+)*`: consume dot-digit groups while
present; fuelled recursion (the fuel, one unit per group of at least
two characters, provably never runs out at `length`). -/
def dotDigitsF : Nat → List Char → List Char × List Char
  | 0, cs => ([], cs)
  | fuel + 1, cs =>
    match cs with
    | '.' :: rest =>
      let ds := rest.takeWhile Char.isDigit
      if ds.isEmpty then ([], cs)
      else
        let p := dotDigitsF fuel (rest.drop ds.length)
        ('.' :: (ds ++ p.1), p.2)
    | _ => ([], cs)

def dotDigits (cs : List Char) : List Char × List Char :=
  dotDigitsF cs.length cs

/-- Matcher for the version group `v\d+(?:\.\d+)*` anchored at the start
of the input; returns the matched group and the rest. -/
def matchVersionAt : List Char → Option (List Char × List Char)
  | 'v' :: r =>
    let ds := r.takeWhile Char.isDigit
    if ds.isEmpty then none
    else
      let p := dotDigits (r.drop ds.length)
      some ('v' :: (ds ++ p.1), p.2)
  | _ => none

/-- Matcher for the unpinned pattern `([\w-]+/[\w-]+)@(v\d+(?:\.\d+)*)`
anchored at the start of the input; returns the two groups and the rest
after the match. -/
def matchUnpinnedAt (cs : List Char) : Option (List Char × List Char × List Char) :=
  let owner := cs.takeWhile isRepoChar
  if owner.isEmpty then none
  else
    match cs.drop owner.length with
    | '/' :: r2 =>
      let name := r2.takeWhile isRepoChar
      if name.isEmpty then none
      else
        match r2.drop name.length with
        | '@' :: r3 =>
          match matchVersionAt r3 with
          | some (ver, rest) => some (owner ++ '/' :: name, ver, rest)
          | none => none
        | _ => none
    | _ => none

/-- Leftmost search for the unpinned pattern (`re.search` semantics):
the first start position at which the pattern matches wins.  Returns the
repo and tag groups. -/
def search_unpinned : List Char → Option (List Char × List Char)
  | [] => none
  | c :: rest =>
    match matchUnpinnedAt (c :: rest) with
    | some (repo, ver, _) => some (repo, ver)
    | none => search_unpinned rest

/-- Matcher for the pinned pattern
`([\w-]+/[\w-]+)@([0-9a-f]{40})\s*#\s*(v\d+(?:\.\d+)*)` anchored at the
start of the input; returns the three groups and the rest after the
match. -/
def matchPinnedAt (cs : List Char) : Option (List Char × List Char × List Char × List Char) :=
  let owner := cs.takeWhile isRepoChar
  if owner.isEmpty then none
  else
    match cs.drop owner.length with
    | '/' :: r2 =>
      let name := r2.takeWhile isRepoChar
      if name.isEmpty then none
      else
        match r2.drop name.length with
        | '@' :: r3 =>
          let sha := r3.take 40
          if sha.length = 40 ∧ sha.all isHexLower then
            let r4 := r3.drop 40
            let sp1 := r4.takeWhile isPySpace
            match r4.drop sp1.length with
            | '#' :: r5 =>
              let sp2 := r5.takeWhile isPySpace
              match matchVersionAt (r5.drop sp2.length) with
              | some (ver, rest) => some (owner ++ '/' :: name, sha, ver, rest)
              | none => none
            | _ => none
          else none
        | _ => none
    | _ => none

/-- Leftmost search for the pinned pattern; returns the repo, sha and
comment-version groups. -/
def search_pinned : List Char → Option (List Char × List Char × List Char)
  | [] => none
  | c :: rest =>
    match matchPinnedAt (c :: rest) with
    | some (repo, sha, ver, _) => some (repo, sha, ver)
    | none => search_pinned rest

/-- Embedding of `is_pinned_action`. -/
def is_pinned_action (line : List Char) : Bool :=
  (search_pinned line).isSome

/-- Python `str.replace`: replace every non-overlapping occurrence of
`old`, scanning left to right.  Fuelled recursion; every step consumes
at least one character (the script always calls it with a nonempty
`old`), so fuel `length + 1` never runs out. -/
def strReplaceF (old new : List Char) : Nat → List Char → List Char
  | 0, cs => cs
  | _ + 1, [] => []
  | fuel + 1, c :: rest =>
    if old.isPrefixOf (c :: rest) ∧ ¬ old.isEmpty then
      new ++ strReplaceF old new fuel ((c :: rest).drop old.length)
    else c :: strReplaceF old new fuel rest

def strReplace (old new cs : List Char) : List Char :=
  strReplaceF old new (cs.length + 1) cs

/-- Python `re.sub` with the pinned pattern and a fixed replacement
string (the script interpolates a sha and version, which contain no
regex template escapes): replace every non-overlapping match, scanning
left to right and continuing after each match.  Fuelled recursion;
every step consumes at least one character. -/
def reSubPinnedF (repl : List Char) : Nat → List Char → List Char
  | 0, cs => cs
  | _ + 1, [] => []
  | fuel + 1, c :: rest =>
    match matchPinnedAt (c :: rest) with
    | some (_, _, _, after) => repl ++ reSubPinnedF repl fuel after
    | none => c :: reSubPinnedF repl fuel rest

def reSubPinned (repl cs : List Char) : List Char :=
  reSubPinnedF repl (cs.length + 1) cs

/-- Embedding of `process_unpinned_action`: find the first unpinned
reference, resolve it, and on success replace every occurrence of the
`repo@tag` substring by `repo@sha # version`. -/
def process_unpinned_action (env : Env) (cache : Cache) (check_for_updates : Bool)
    (line : List Char) : List Char × Bool × Cache :=
  match search_unpinned line with
  | none => (line, false, cache)
  | some (repoCs, tagCs) =>
    match fetch_tag_details env cache (String.mk repoCs) (String.mk tagCs)
        check_for_updates with
    | (none, cache2) => (line, false, cache2)
    | (some (sha, full_version), cache2) =>
      if sha = "" then (line, false, cache2)
      else
        let key := repoCs ++ '@' :: tagCs
        let repl := repoCs ++ '@' :: (sha.data ++ ' ' :: '#' :: ' ' :: full_version.data)
        (strReplace key repl line, true, cache2)

/-- Embedding of `process_pinned_action`: with update mode off the line
is returned unchanged immediately; otherwise the first pinned match is
resolved through its comment version and on a differing result every
pinned match on the line is replaced by `repo@sha # full_version`. -/
def process_pinned_action (env : Env) (cache : Cache) (check_for_updates : Bool)
    (line : List Char) : List Char × Bool × Cache :=
  if check_for_updates = false then (line, false, cache)
  else
    match search_pinned line with
    | none => (line, false, cache)
    | some (repoCs, _, verCs) =>
      match fetch_tag_details env cache (String.mk repoCs) (String.mk verCs) true with
      | (none, cache2) => (line, false, cache2)
      | (some (sha, full_version), cache2) =>
        if sha = "" ∨ full_version = String.mk verCs then (line, false, cache2)
        else
          let repl := repoCs ++ '@' :: (sha.data ++ ' ' :: '#' :: ' ' :: full_version.data)
          (reSubPinned repl line, true, cache2)

/-- Embedding of `process_line`: dispatch on `is_pinned_action`. -/
def process_line (env : Env) (cache : Cache) (check_for_updates : Bool)
    (line : List Char) : List Char × Bool × Cache :=
  if is_pinned_action line then process_pinned_action env cache check_for_updates line
  else process_unpinned_action env cache check_for_updates line

/-! ## File Processor (`process_workflow_file`)

The file content is read with `newline=''` (no newline translation),
split with `str.splitlines`, each line rewritten, and the results
rejoined with `'\n'.join(...)`; the file is rewritten (also with
`newline=''`) only when some line reported a change.  `str.splitlines`
treats `\n`, `\r`, `\r\n`, `\v`, `\f` and the ASCII separators
`\x1c`-`\x1e` as line boundaries (the non-ASCII boundaries, such as
`\x85`, fall outside the ASCII model). -/

def isLineBoundary (c : Char) : Bool :=
  c = '\n' || c = '\x0b' || c = '\x0c' || c = '\x1c' || c = '\x1d' || c = '\x1e'

/-- Split off the first line: returns the line (without its terminator)
and the rest after the terminator, or `none` when the input ends without
a terminator. -/
def breakLine : List Char → List Char × Option (List Char)
  | [] => ([], none)
  | c :: rest =>
    if c = '\r' then
      match rest with
      | '\n' :: rest2 => ([], some rest2)
      | _ => ([], some rest)
    else if isLineBoundary c then ([], some rest)
    else
      let p := breakLine rest
      (c :: p.1, p.2)

/-- Python `str.splitlines`, fuelled (each emitted line consumes at
least one character, so fuel `length + 1` never runs out). -/
def splitlinesF : Nat → List Char → List (List Char)
  | 0, _ => []
  | fuel + 1, cs =>
    match breakLine cs with
    | (l, none) => if l.isEmpty then [] else [l]
    | (l, some rest) => l :: splitlinesF fuel rest

def splitlines (cs : List Char) : List (List Char) :=
  splitlinesF (cs.length + 1) cs

/-- Python `'\n'.join`. -/
def joinLF : List (List Char) → List Char
  | [] => []
  | [l] => l
  | l :: ls => l ++ '\n' :: joinLF ls

/-- Process the split lines in order, threading the cache through the
resolutions, and collect each rewritten line with its changed flag. -/
def processLines (env : Env) (check_for_updates : Bool) :
    Cache → List (List Char) → List (List Char × Bool) × Cache
  | cache, [] => ([], cache)
  | cache, l :: ls =>
    let r := process_line env cache check_for_updates l
    let rest := processLines env check_for_updates r.2.2 ls
    ((r.1, r.2.1) :: rest.1, rest.2)

/-- Embedding of `process_workflow_file` on the file content: `some`
new content when at least one line changed (the file is overwritten
with it), `none` when no line changed (no write occurs).  The read and
write I/O failures of the Python function abort that file only and are
outside this pure model. -/
def process_workflow_file (env : Env) (cache : Cache) (check_for_updates : Bool)
    (content : List Char) : Option (List Char) × Cache :=
  let res := processLines env check_for_updates cache (splitlines content)
  if res.1.any (fun p => p.2) then (some (joinLF (res.1.map (fun p => p.1))), res.2)
  else (none, res.2)

/-! ## Cache Store persistence (`load_cache`)

The persisted cache file is a JSON object with a `timestamp` and an
`entries` mapping.  `load_cache` starts from the empty in-memory cache
(the module-level `cache = {}`) and assigns `entries` to it only when
the file exists, parses, carries a timestamp, and
`datetime.now() - cache_time < timedelta(hours=24)`; every other path
(missing file, read or JSON or timestamp parse error — all caught by
the `except` block — missing key, stale timestamp) leaves the cache
empty and returns normally.  Timestamps are modelled in seconds. -/

inductive CacheFileState : Type
  | missing
  | unreadable
  | ok (timestamp : Option Int) (entries : Cache)

/-- Embedding of `load_cache`: the in-memory cache after the load,
given the persisted state and the current time in seconds. -/
def load_cache (st : CacheFileState) (now : Int) : Cache :=
  match st with
  | .missing => []
  | .unreadable => []
  | .ok none _ => []
  | .ok (some cache_time) entries =>
    if now - cache_time ≥ 24 * 60 * 60 then [] else entries

/-! ## Demonstration environments and specification-side definitions -/

/-- The environment in which every remote query fails. -/
def envEmptyAll : Env :=
  ⟨fun _ => none, fun _ _ => none, fun _ => none, fun _ => none⟩

/-- Environment for the C1 evaluation: one release `v4.2.0`, and the
ref endpoint returning a fresh sha. -/
def envC1 : Env :=
  ⟨fun _ => some ["v4.2.0"],
   fun _ _ => some "1111111111111111111111111111111111111111",
   fun _ => none, fun _ => none⟩

/-- Cache for the C1 evaluation: an entry for the resolved target tag
`actions/checkout@v4.2.0` is already present. -/
def cacheC1 : Cache :=
  [("actions/checkout@v4.2.0",
    "2222222222222222222222222222222222222222", "v4.2.0")]

/-- Environment for the C2 counterexample: the tags list contains the
target tag `v1` itself, and the latest release is `v1.9.3`. -/
def envC2 : Env :=
  ⟨fun _ => none,
   fun _ _ => some "3333333333333333333333333333333333333333",
   fun _ => some ["v1"],
   fun _ => some "v1.9.3"⟩

/-- Environment for C3: every ref lookup returns a fixed sha, no other
endpoint answers. -/
def envC3 : Env :=
  ⟨fun _ => none,
   fun _ _ => some "aaaabbbbccccddddeeeeffff0000111122223333",
   fun _ => none, fun _ => none⟩

/-- Environment with a parametric ref sha only. -/
def envSha (sha : String) : Env :=
  ⟨fun _ => none, fun _ _ => some sha, fun _ => none, fun _ => none⟩

/-- Environment with a parametric ref sha and latest-release tag. -/
def envPin (sha latest : String) : Env :=
  ⟨fun _ => none, fun _ _ => some sha, fun _ => none, fun _ => some latest⟩

/-- A release tag is a candidate when it parses as semver with the same
major number as the parsed input. -/
def sameMajor (cur : SemVer) (t : String) : Bool :=
  match parse_semver t with
  | some p => p.major = cur.major
  | none => false

/-- Environment for the C4 witness: releases `v4.1.0`, `v4.2.0` of
major 4 and `v5.0.0` of major 5 (the scenario of the specification). -/
def envC4 : Env :=
  ⟨fun _ => some ["v4.1.0", "v4.2.0", "v5.0.0"],
   fun _ _ => none, fun _ => none, fun _ => none⟩

/-- Replace every line terminator (`\r\n` as a unit, then any single
boundary character) by `\n`, leaving other characters alone.  This is
the specification-side description of what splitting and rejoining does
to terminators. -/
def normTerms : List Char → List Char
  | [] => []
  | ['\r'] => ['\n']
  | '\r' :: '\n' :: rest => '\n' :: normTerms rest
  | '\r' :: c :: rest => '\n' :: normTerms (c :: rest)
  | c :: rest => if isLineBoundary c then '\n' :: normTerms rest else c :: normTerms rest

/-- Drop one trailing `\n` if present. -/
def chopLF : List Char → List Char
  | [] => []
  | [c] => if c = '\n' then [] else [c]
  | c :: rest => c :: chopLF rest

/-! ## Concrete checks of the embedding -/

example : parse_semver "v1.2.3" = some ⟨1, 2, 3, [], []⟩ := by decide

example : parse_semver "1.2.3" = some ⟨1, 2, 3, [], []⟩ := by decide

example : parse_semver "v4" = none := by decide

example : parse_semver "latest" = none := by decide

example : parse_semver "v1.x" = none := by decide

example : parse_semver "v1.2" = none := by decide

example : parse_semver "v1.02.3" = none := by decide

example : parse_semver "v1.2.3-alpha.1" = some ⟨1, 2, 3, [.str "alpha".data, .num 1], []⟩ := by decide

example : parse_semver "v1.2.3-01" = none := by decide

example : parse_semver "v1.2.3+b.7" = some ⟨1, 2, 3, [], ["b".data, "7".data]⟩ := by decide

example : parse_semver "v1.2.3-a..b" = none := by decide

example : semverGt ⟨4, 2, 0, [], []⟩ ⟨4, 1, 0, [], []⟩ := by decide

example : semverGt ⟨1, 2, 3, [], []⟩ ⟨1, 2, 3, [.str "alpha".data], []⟩ := by decide

example : ¬ semverGt ⟨1, 2, 3, [.num 1], []⟩ ⟨1, 2, 3, [.str "alpha".data], []⟩ := by decide

example : search_unpinned "    - uses: actions/checkout@v4".data =
    some ("actions/checkout".data, "v4".data) := by decide

example : search_unpinned "  image: ubuntu:22.04".data = none := by decide

example : is_pinned_action
    "    - uses: actions/checkout@0123456789abcdef0123456789abcdef01234567 # v4.1.1".data
    = true := by decide

example : is_pinned_action "    - uses: actions/checkout@v4".data = false := by decide

example : search_pinned
    "    - uses: actions/checkout@0123456789abcdef0123456789abcdef01234567 # v4.1.1".data
    = some ("actions/checkout".data,
        "0123456789abcdef0123456789abcdef01234567".data, "v4.1.1".data) := by decide

example : strReplace "a/b@v1".data "X".data "uses: a/b@v1 a/b@v1".data =
    "uses: X X".data := by decide

example : splitlines "a\r\nb\nc".data = ["a".data, "b".data, "c".data] := by decide

example : splitlines "a\n".data = ["a".data] := by decide

example : splitlines "".data = [] := by decide

example : splitlines "a\n\n".data = ["a".data, [] ] := by decide

example : joinLF ["a".data, "b".data] = "a\nb".data := by decide

/-! ## Comparator laws and helper lemmas -/

theorem cmpLawful_nat : CmpLawful (fun a b : Nat => compare a b) := by
  refine ⟨?_, ?_, ?_, ?_, ?_⟩
  · intro a b h c
    rw [Nat.compare_eq_eq] at h
    rw [h]
  · intro a b h c
    rw [Nat.compare_eq_eq] at h
    rw [h]
  · intro a b c h1 h2
    rw [Nat.compare_eq_lt] at h1 h2 ⊢
    exact Nat.lt_trans h1 h2
  · intro a b c h1 h2
    rw [Nat.compare_eq_gt] at h1 h2 ⊢
    exact Nat.lt_trans h2 h1
  · intro a
    rw [Nat.compare_eq_eq]

theorem lexCmp_lawful {α : Type} (f : α → α → Ordering) (hf : CmpLawful f) :
    CmpLawful (lexCmp f) := by
  obtain ⟨fel, fer, flt, fgt, frefl⟩ := hf
  have hel : ∀ a b, lexCmp f a b = .eq → ∀ c, lexCmp f a c = lexCmp f b c := by
    intro a
    induction a with
    | nil =>
      intro b h c
      cases b with
      | nil => rfl
      | cons x xs => simp [lexCmp] at h
    | cons x xs ih =>
      intro b h c
      cases b with
      | nil => simp [lexCmp] at h
      | cons y ys =>
        simp only [lexCmp] at h
        cases hxy : f x y with
        | eq =>
          rw [hxy] at h
          cases c with
          | nil => rfl
          | cons z zs =>
            simp only [lexCmp, fel x y hxy z]
            cases f y z with
            | eq => exact ih ys h zs
            | lt => rfl
            | gt => rfl
        | lt => rw [hxy] at h; exact absurd h (by simp)
        | gt => rw [hxy] at h; exact absurd h (by simp)
  have her : ∀ a b, lexCmp f a b = .eq → ∀ c, lexCmp f c a = lexCmp f c b := by
    intro a
    induction a with
    | nil =>
      intro b h c
      cases b with
      | nil => rfl
      | cons x xs => simp [lexCmp] at h
    | cons x xs ih =>
      intro b h c
      cases b with
      | nil => simp [lexCmp] at h
      | cons y ys =>
        simp only [lexCmp] at h
        cases hxy : f x y with
        | eq =>
          rw [hxy] at h
          cases c with
          | nil => rfl
          | cons z zs =>
            simp only [lexCmp, fer x y hxy z]
            cases f z y with
            | eq => exact ih ys h zs
            | lt => rfl
            | gt => rfl
        | lt => rw [hxy] at h; exact absurd h (by simp)
        | gt => rw [hxy] at h; exact absurd h (by simp)
  refine ⟨hel, her, ?_, ?_, ?_⟩
  · intro a
    induction a with
    | nil =>
      intro b c h1 h2
      cases b with
      | nil => exact h2
      | cons y ys =>
        cases c with
        | nil => simp [lexCmp] at h2
        | cons z zs => simp [lexCmp]
    | cons x xs ih =>
      intro b c h1 h2
      cases b with
      | nil => simp [lexCmp] at h1
      | cons y ys =>
        cases c with
        | nil => simp [lexCmp] at h2
        | cons z zs =>
          simp only [lexCmp] at h1 h2 ⊢
          cases hxy : f x y with
          | eq =>
            rw [hxy] at h1
            have : f x z = f y z := fel x y hxy z
            rw [this]
            cases hyz : f y z with
            | eq => rw [hyz] at h2; exact ih ys zs h1 h2
            | lt => rfl
            | gt => rw [hyz] at h2; exact absurd h2 (by simp)
          | lt =>
            cases hyz : f y z with
            | eq =>
              have hxz : f x y = f x z := fer y z hyz x
              rw [← hxz, hxy]
            | lt => rw [flt x y z hxy hyz]
            | gt => rw [hyz] at h2; exact absurd h2 (by simp)
          | gt => rw [hxy] at h1; exact absurd h1 (by simp)
  · intro a
    induction a with
    | nil =>
      intro b c h1 h2
      cases b with
      | nil => exact h2
      | cons y ys => simp [lexCmp] at h1
    | cons x xs ih =>
      intro b c h1 h2
      cases b with
      | nil =>
        cases c with
        | nil => simp [lexCmp] at h2
        | cons z zs => simp [lexCmp] at h2
      | cons y ys =>
        cases c with
        | nil => simp [lexCmp]
        | cons z zs =>
          simp only [lexCmp] at h1 h2 ⊢
          cases hxy : f x y with
          | eq =>
            rw [hxy] at h1
            have : f x z = f y z := fel x y hxy z
            rw [this]
            cases hyz : f y z with
            | eq => rw [hyz] at h2; exact ih ys zs h1 h2
            | lt => rw [hyz] at h2; exact absurd h2 (by simp)
            | gt => rfl
          | lt => rw [hxy] at h1; exact absurd h1 (by simp)
          | gt =>
            cases hyz : f y z with
            | eq =>
              have hxz : f x y = f x z := fer y z hyz x
              rw [← hxz, hxy]
            | lt => rw [hyz] at h2; exact absurd h2 (by simp)
            | gt => rw [fgt x y z hxy hyz]
  · intro a
    induction a with
    | nil => rfl
    | cons x xs ih => simp only [lexCmp, frefl x, ih]

theorem cmpLawful_comap {α β : Type} (f : β → β → Ordering) (g : α → β)
    (hf : CmpLawful f) : CmpLawful (fun a b => f (g a) (g b)) := by
  obtain ⟨fel, fer, flt, fgt, frefl⟩ := hf
  exact ⟨fun a b h c => fel _ _ h _, fun a b h c => fer _ _ h _,
    fun a b c h1 h2 => flt _ _ _ h1 h2, fun a b c h1 h2 => fgt _ _ _ h1 h2,
    fun a => frefl _⟩

theorem cmpThen_eq_eq {α : Type} (f g : α → α → Ordering) (a b : α) :
    cmpThen f g a b = .eq ↔ f a b = .eq ∧ g a b = .eq := by
  unfold cmpThen
  cases h : f a b <;> simp

theorem cmpThen_eq_lt {α : Type} (f g : α → α → Ordering) (a b : α) :
    cmpThen f g a b = .lt ↔ f a b = .lt ∨ (f a b = .eq ∧ g a b = .lt) := by
  unfold cmpThen
  cases h : f a b <;> simp

theorem cmpThen_eq_gt {α : Type} (f g : α → α → Ordering) (a b : α) :
    cmpThen f g a b = .gt ↔ f a b = .gt ∨ (f a b = .eq ∧ g a b = .gt) := by
  unfold cmpThen
  cases h : f a b <;> simp

theorem cmpThen_lawful {α : Type} (f g : α → α → Ordering)
    (hf : CmpLawful f) (hg : CmpLawful g) : CmpLawful (cmpThen f g) := by
  obtain ⟨fel, fer, flt, fgt, frefl⟩ := hf
  obtain ⟨gel, ger, glt, ggt, grefl⟩ := hg
  refine ⟨?_, ?_, ?_, ?_, ?_⟩
  · intro a b h c
    obtain ⟨h1, h2⟩ := (cmpThen_eq_eq f g a b).mp h
    unfold cmpThen
    rw [fel a b h1 c, gel a b h2 c]
  · intro a b h c
    obtain ⟨h1, h2⟩ := (cmpThen_eq_eq f g a b).mp h
    unfold cmpThen
    rw [fer a b h1 c, ger a b h2 c]
  · intro a b c h1 h2
    rw [cmpThen_eq_lt] at h1 h2 ⊢
    rcases h1 with h1 | ⟨h1e, h1g⟩
    · rcases h2 with h2 | ⟨h2e, h2g⟩
      · exact Or.inl (flt a b c h1 h2)
      · exact Or.inl (by rw [← fer b c h2e a]; exact h1)
    · rcases h2 with h2 | ⟨h2e, h2g⟩
      · exact Or.inl (by rw [fel a b h1e c]; exact h2)
      · exact Or.inr ⟨by rw [fel a b h1e c]; exact h2e, glt a b c h1g h2g⟩
  · intro a b c h1 h2
    rw [cmpThen_eq_gt] at h1 h2 ⊢
    rcases h1 with h1 | ⟨h1e, h1g⟩
    · rcases h2 with h2 | ⟨h2e, h2g⟩
      · exact Or.inl (fgt a b c h1 h2)
      · exact Or.inl (by rw [← fer b c h2e a]; exact h1)
    · rcases h2 with h2 | ⟨h2e, h2g⟩
      · exact Or.inl (by rw [fel a b h1e c]; exact h2)
      · exact Or.inr ⟨by rw [fel a b h1e c]; exact h2e, ggt a b c h1g h2g⟩
  · intro a
    unfold cmpThen
    rw [frefl a, grefl a]

theorem cmpChar_lawful : CmpLawful cmpChar :=
  cmpLawful_comap (fun a b : Nat => compare a b) Char.toNat cmpLawful_nat

theorem cmpCharList_lawful : CmpLawful cmpCharList :=
  lexCmp_lawful cmpChar cmpChar_lawful

theorem cmpPreId_lawful : CmpLawful cmpPreId := by
  obtain ⟨cel, cer, clt, cgt, crefl⟩ := cmpCharList_lawful
  refine ⟨?_, ?_, ?_, ?_, ?_⟩
  · intro a b h c
    cases a with
    | num x =>
      cases b with
      | num y =>
        have hxy : x = y := by
          simp only [cmpPreId] at h
          rwa [Nat.compare_eq_eq] at h
        rw [hxy]
      | str y => simp [cmpPreId] at h
    | str x =>
      cases b with
      | num y => simp [cmpPreId] at h
      | str y =>
        simp only [cmpPreId] at h
        cases c with
        | num z => rfl
        | str z => simp only [cmpPreId]; exact cel _ _ h _
  · intro a b h c
    cases a with
    | num x =>
      cases b with
      | num y =>
        have hxy : x = y := by
          simp only [cmpPreId] at h
          rwa [Nat.compare_eq_eq] at h
        rw [hxy]
      | str y => simp [cmpPreId] at h
    | str x =>
      cases b with
      | num y => simp [cmpPreId] at h
      | str y =>
        simp only [cmpPreId] at h
        cases c with
        | num z => rfl
        | str z => simp only [cmpPreId]; exact cer _ _ h _
  · intro a b c h1 h2
    cases a <;> cases b <;> cases c <;> simp only [cmpPreId] at h1 h2 ⊢ <;>
      first
        | rfl
        | exact Ordering.noConfusion h1
        | exact Ordering.noConfusion h2
        | (rw [Nat.compare_eq_lt] at h1 h2 ⊢; exact Nat.lt_trans h1 h2)
        | exact clt _ _ _ h1 h2
  · intro a b c h1 h2
    cases a <;> cases b <;> cases c <;> simp only [cmpPreId] at h1 h2 ⊢ <;>
      first
        | rfl
        | exact Ordering.noConfusion h1
        | exact Ordering.noConfusion h2
        | (rw [Nat.compare_eq_gt] at h1 h2 ⊢; exact Nat.lt_trans h2 h1)
        | exact cgt _ _ _ h1 h2
  · intro a
    cases a with
    | num n => simp only [cmpPreId]; rw [Nat.compare_eq_eq]
    | str s => exact crefl s

theorem cmpPreList_lawful : CmpLawful cmpPreList :=
  lexCmp_lawful cmpPreId cmpPreId_lawful

theorem cmpPre_lawful : CmpLawful cmpPre := by
  obtain ⟨pel, per, plt, pgt, prefl⟩ := cmpPreList_lawful
  have hne : ∀ (a b : List PreId), a ≠ [] → b ≠ [] → cmpPre a b = cmpPreList a b := by
    intro a b ha hb
    cases a with
    | nil => exact absurd rfl ha
    | cons x xs =>
      cases b with
      | nil => exact absurd rfl hb
      | cons y ys => rfl
  refine ⟨?_, ?_, ?_, ?_, ?_⟩
  · intro a b h c
    cases a with
    | nil =>
      cases b with
      | nil => rfl
      | cons y ys => simp [cmpPre] at h
    | cons x xs =>
      cases b with
      | nil => simp [cmpPre] at h
      | cons y ys =>
        rw [hne _ _ (by simp) (by simp)] at h
        cases c with
        | nil => rfl
        | cons z zs =>
          rw [hne _ _ (by simp) (by simp), hne _ _ (by simp) (by simp)]
          exact pel _ _ h _
  · intro a b h c
    cases a with
    | nil =>
      cases b with
      | nil => rfl
      | cons y ys => simp [cmpPre] at h
    | cons x xs =>
      cases b with
      | nil => simp [cmpPre] at h
      | cons y ys =>
        rw [hne _ _ (by simp) (by simp)] at h
        cases c with
        | nil => rfl
        | cons z zs =>
          rw [hne _ _ (by simp) (by simp), hne _ _ (by simp) (by simp)]
          exact per _ _ h _
  · intro a b c h1 h2
    cases a with
    | nil =>
      cases b with
      | nil => exact h2
      | cons y ys => simp [cmpPre] at h1
    | cons x xs =>
      cases b with
      | nil =>
        cases c with
        | nil => simp [cmpPre] at h2
        | cons z zs => simp [cmpPre] at h2
      | cons y ys =>
        cases c with
        | nil => simp [cmpPre]
        | cons z zs =>
          rw [hne _ _ (by simp) (by simp)] at h1 h2 ⊢
          exact plt _ _ _ h1 h2
  · intro a b c h1 h2
    cases a with
    | nil =>
      cases b with
      | nil => exact h2
      | cons y ys =>
        cases c with
        | nil => simp [cmpPre] at h2
        | cons z zs => simp [cmpPre]
    | cons x xs =>
      cases b with
      | nil => simp [cmpPre] at h1
      | cons y ys =>
        cases c with
        | nil =>
          rw [hne _ _ (by simp) (by simp)] at h1
          simp [cmpPre] at h2
        | cons z zs =>
          rw [hne _ _ (by simp) (by simp)] at h1 h2 ⊢
          exact pgt _ _ _ h1 h2
  · intro a
    cases a with
    | nil => rfl
    | cons x xs => exact prefl (x :: xs)

theorem semverCompare_lawful : CmpLawful semverCompare := by
  unfold semverCompare
  refine cmpThen_lawful _ _ (cmpLawful_comap _ SemVer.major cmpLawful_nat) ?_
  refine cmpThen_lawful _ _ (cmpLawful_comap _ SemVer.minor cmpLawful_nat) ?_
  refine cmpThen_lawful _ _ (cmpLawful_comap _ SemVer.patch cmpLawful_nat) ?_
  exact cmpLawful_comap cmpPre SemVer.prerelease cmpPre_lawful

theorem semverGt_irrefl (a : SemVer) : ¬ semverGt a a := by
  unfold semverGt
  rw [semverCompare_lawful.2.2.2.2 a]
  simp

theorem semverGt_trans {a b c : SemVer} (h1 : semverGt a b) (h2 : semverGt b c) :
    semverGt a c :=
  semverCompare_lawful.2.2.2.1 a b c h1 h2

theorem semverGt_asymm {a b : SemVer} (h : semverGt a b) : ¬ semverGt b a := by
  intro h2
  exact semverGt_irrefl a (semverGt_trans h h2)

theorem semverNgt_trans {a b c : SemVer} (h1 : ¬ semverGt a b) (h2 : ¬ semverGt b c) :
    ¬ semverGt a c := by
  obtain ⟨sel, ser, slt, sgt, srefl⟩ := semverCompare_lawful
  intro hac
  unfold semverGt at h1 h2 hac
  cases hab : semverCompare a b with
  | eq => exact h2 (by rwa [← sel a b hab c])
  | gt => exact h1 hab
  | lt =>
    cases hbc : semverCompare b c with
    | eq =>
      rw [ser b c hbc a, hac] at hab
      exact absurd hab (by simp)
    | gt => exact h2 hbc
    | lt =>
      have hlt := slt a b c hab hbc
      rw [hac] at hlt
      exact absurd hlt (by simp)

/-- With `check_for_updates` true, `get_cached_details` returns no entry
regardless of the cache contents: the guard `not check_for_updates and
cache_key in cache` can never hold. -/
theorem get_cached_details_true (cache : Cache) (repo tag : String) :
    get_cached_details cache repo tag true = none := rfl

/-- The tags-list scan of `get_exact_tag_match` returns its input tag on
every path: fetch failure, an exact hit, and an exhausted scan all
return `tag`. -/
theorem get_exact_tag_match_eq (env : Env) (repo tag : String) :
    get_exact_tag_match env repo tag = tag := by
  unfold get_exact_tag_match
  cases env.tagsList repo with
  | none => rfl
  | some tags_data =>
    by_cases h1 : tags_data.isEmpty <;>
      by_cases h2 : tags_data.any (fun tag_info => tag_info = tag) <;>
        simp [h1, h2]

/-- In the all-failing environment with an empty cache, every resolution
returns the null sha. -/
theorem fetch_none_of_empty (repo tag : String) (b : Bool) :
    (fetch_tag_details envEmptyAll [] repo tag b).1 = none := by
  unfold fetch_tag_details
  have hlat : get_latest_version envEmptyAll repo tag = tag := by
    unfold get_latest_version
    cases h : parse_semver tag with
    | none => rfl
    | some parsed => simp [get_all_releases, envEmptyAll]
  cases b with
  | false => rfl
  | true =>
    simp only [get_cached_details_true, hlat, if_true]
    simp [envEmptyAll, get_tag_sha]

/-- A line whose rewrite reported no change is returned verbatim: every
`return line, False` path of both process functions carries the
original line. -/
theorem process_line_false_id (env : Env) (cache : Cache) (cfu : Bool)
    (line : List Char) :
    (process_line env cache cfu line).2.1 = false →
    (process_line env cache cfu line).1 = line := by
  unfold process_line
  by_cases hp : is_pinned_action line <;> simp only [hp, if_true, if_false]
  · unfold process_pinned_action
    by_cases hc : cfu = false
    · simp [hc]
    · simp only [hc, if_false]
      cases hs : search_pinned line with
      | none => simp
      | some g =>
        obtain ⟨repoCs, shaCs, verCs⟩ := g
        dsimp only
        cases hf : fetch_tag_details env cache (String.mk repoCs) (String.mk verCs) true with
        | mk r cache2 =>
          cases r with
          | none => simp
          | some p =>
            obtain ⟨sha, full_version⟩ := p
            by_cases hz : sha = "" ∨ full_version = String.mk verCs <;> simp [hz]
  · unfold process_unpinned_action
    cases hs : search_unpinned line with
    | none => simp
    | some g =>
      obtain ⟨repoCs, tagCs⟩ := g
      dsimp only
      cases hf : fetch_tag_details env cache (String.mk repoCs) (String.mk tagCs) cfu with
      | mk r cache2 =>
        cases r with
        | none => simp
        | some p =>
          obtain ⟨sha, full_version⟩ := p
          by_cases hz : sha = "" <;> simp [hz]

/-! ## Claim C5 -/

/-- C5: `load_cache` populates the in-memory cache from persisted
storage only when the stored timestamp is within the 24-hour freshness
window of the current time (the code tests
`datetime.now() - cache_time < timedelta(hours=24)`); a stale cache is
discarded as a whole and satisfies no lookup, and a read or parse error
(including a missing timestamp) leaves the cache empty.  The function
is total, so no failure escapes to the process. -/
theorem c5_load_cache_freshness :
    (∀ st now, load_cache st now = [] ∨
      ∃ t entries, st = .ok (some t) entries ∧ now - t < 86400 ∧
        load_cache st now = entries) ∧
    (∀ t entries now, now - t ≥ 86400 →
      load_cache (.ok (some t) entries) now = []) ∧
    (∀ now, load_cache .unreadable now = []) ∧
    (∀ now entries, load_cache (.ok none entries) now = []) ∧
    (∀ t entries now repo tag cfu, now - t ≥ 86400 →
      get_cached_details (load_cache (.ok (some t) entries) now) repo tag cfu = none) := by
  have hstale : ∀ t entries now, now - t ≥ 86400 →
      load_cache (.ok (some t) entries) now = [] := by
    intro t entries now h
    unfold load_cache
    simp only [show (24 * 60 * 60 : Int) = 86400 by norm_num]
    rw [if_pos h]
  refine ⟨?_, hstale, fun now => rfl, fun now entries => rfl, ?_⟩
  · intro st now
    cases st with
    | missing => exact Or.inl rfl
    | unreadable => exact Or.inl rfl
    | ok t entries =>
      cases t with
      | none => exact Or.inl rfl
      | some t0 =>
        by_cases h : now - t0 ≥ 86400
        · exact Or.inl (hstale t0 entries now h)
        · refine Or.inr ⟨t0, entries, rfl, by omega, ?_⟩
          unfold load_cache
          simp only [show (24 * 60 * 60 : Int) = 86400 by norm_num]
          rw [if_neg h]
  · intro t entries now repo tag cfu h
    rw [hstale t entries now h]
    unfold get_cached_details
    cases cfu with
    | true => rfl
    | false => rfl

/-- Witness for C5 at concrete inputs: a cache stamped at time 0 is
discarded at time 86400 (exactly 24 hours later) and satisfies no
lookup at time 90000. -/
theorem c5_witness :
    load_cache (.ok (some 0) [("actions/checkout@v4", "aa", "v4")]) 86400 = [] ∧
    get_cached_details
      (load_cache (.ok (some 0) [("actions/checkout@v4", "aa", "v4")]) 90000)
      "actions/checkout" "v4" false = none :=
  ⟨c5_load_cache_freshness.2.1 0 [("actions/checkout@v4", "aa", "v4")] 86400 (by decide),
   c5_load_cache_freshness.2.2.2.2 0 [("actions/checkout@v4", "aa", "v4")] 90000
     "actions/checkout" "v4" false (by decide)⟩

/-! ## Claim C6 -/

/-- C6: tags that are not valid semantic versions after stripping an
optional leading `v` (such as `latest` and `v1.x`) make `parse_semver`
return failure — a total function, no exception — and upgrade-checking
with such a tag returns the input tag unchanged, so non-semver tags are
never auto-upgraded. -/
theorem c6_nonsemver_not_upgraded :
    parse_semver "latest" = none ∧
    parse_semver "v1.x" = none ∧
    (∀ env repo tag, parse_semver tag = none →
      get_latest_version env repo tag = tag) := by
  refine ⟨by decide, by decide, ?_⟩
  intro env repo tag h
  unfold get_latest_version
  rw [h]

/-- Witness for C6: upgrade-checking the tag `latest` in a concrete
environment with releases present still returns `latest`. -/
theorem c6_witness :
    get_latest_version
      ⟨fun _ => some ["v4.1.0", "v4.2.0"], fun _ _ => none, fun _ => none, fun _ => none⟩
      "actions/checkout" "latest" = "latest" :=
  c6_nonsemver_not_upgraded.2.2
    ⟨fun _ => some ["v4.1.0", "v4.2.0"], fun _ _ => none, fun _ => none, fun _ => none⟩
    "actions/checkout" "latest" (by decide)

/-! ## Claim C7 -/

/-- C7: with update mode off, a line matching the pinned pattern is
returned unchanged with no change reported (`process_pinned_action`
returns immediately), so a second pass over the first pass output
again produces no change on that line. -/
theorem c7_pinned_idempotent :
    ∀ env cache line, is_pinned_action line = true →
      process_line env cache false line = (line, false, cache) ∧
      process_line env cache false (process_line env cache false line).1 =
        (line, false, cache) := by
  intro env cache line h
  have h1 : process_line env cache false line = (line, false, cache) := by
    unfold process_line
    rw [h]
    simp [process_pinned_action]
  refine ⟨h1, ?_⟩
  rw [h1]
  exact h1

/-- Witness for C7: a concrete pinned line in the all-failing
environment is untouched by two passes. -/
theorem c7_witness :
    process_line envEmptyAll []
      false "    - uses: actions/checkout@0123456789abcdef0123456789abcdef01234567 # v4.1.1".data =
      ("    - uses: actions/checkout@0123456789abcdef0123456789abcdef01234567 # v4.1.1".data,
        false, []) :=
  (c7_pinned_idempotent envEmptyAll []
    "    - uses: actions/checkout@0123456789abcdef0123456789abcdef01234567 # v4.1.1".data
    (by decide)).1

/-! ## Claim C8 -/

/-- C8: whenever resolution yields the null commit hash, the line
rewriter returns the line unchanged and reports no change; the
resolution chain is total (Python catches every failure and returns
`None`), so no failure reaches the caller as an exception. -/
theorem c8_null_hash_leaves_line :
    ∀ env cache cfu line,
      (∀ repo tag b, (fetch_tag_details env cache repo tag b).1 = none) →
      (process_line env cache cfu line).1 = line ∧
      (process_line env cache cfu line).2.1 = false := by
  intro env cache cfu line h
  unfold process_line
  by_cases hp : is_pinned_action line <;> simp only [hp, if_true, if_false]
  · unfold process_pinned_action
    by_cases hc : cfu = false
    · simp [hc]
    · simp only [hc, if_false]
      cases hs : search_pinned line with
      | none => simp
      | some g =>
        obtain ⟨repoCs, shaCs, verCs⟩ := g
        dsimp only
        cases hf : fetch_tag_details env cache (String.mk repoCs) (String.mk verCs) true with
        | mk r cache2 =>
          have hr : r = none := by
            have hn := h (String.mk repoCs) (String.mk verCs) true
            rw [hf] at hn
            exact hn
          subst hr
          simp
  · unfold process_unpinned_action
    cases hs : search_unpinned line with
    | none => simp
    | some g =>
      obtain ⟨repoCs, tagCs⟩ := g
      dsimp only
      cases hf : fetch_tag_details env cache (String.mk repoCs) (String.mk tagCs) cfu with
      | mk r cache2 =>
        have hr : r = none := by
          have hn := h (String.mk repoCs) (String.mk tagCs) cfu
          rw [hf] at hn
          exact hn
        subst hr
        simp

/-- Witness for C8: in the all-failing environment every resolution
returns the null sha and a concrete unpinned line is left untouched. -/
theorem c8_witness :
    (process_line envEmptyAll [] true "    - uses: actions/checkout@v4".data).1 =
      "    - uses: actions/checkout@v4".data ∧
    (process_line envEmptyAll [] true "    - uses: actions/checkout@v4".data).2.1 = false :=
  c8_null_hash_leaves_line envEmptyAll [] true "    - uses: actions/checkout@v4".data
    (fun repo tag b => fetch_none_of_empty repo tag b)

/-! ## Claim C9 -/

/-- C9: when every line rewrite of a file reports no change,
`process_workflow_file` performs no write: the model returns `none` for
the written content, matching the early `return` before the `open` for
writing. -/
theorem c9_no_change_no_write :
    ∀ env cache cfu content,
      (∀ p ∈ (processLines env cfu cache (splitlines content)).1, p.2 = false) →
      (process_workflow_file env cache cfu content).1 = none := by
  intro env cache cfu content h
  unfold process_workflow_file
  have hany : (processLines env cfu cache (splitlines content)).1.any (fun p => p.2) = false := by
    rw [List.any_eq_false]
    intro p hp
    simp [h p hp]
  simp [hany]

/-- Witness for C9: a concrete two-line file with no action reference
is not written in the all-failing environment. -/
theorem c9_witness :
    (process_workflow_file envEmptyAll [] false "name: test\non: push\n".data).1 = none :=
  c9_no_change_no_write envEmptyAll [] false "name: test\non: push\n".data (by decide)

/-! ## Claim C1 -/

/-- C1 evaluation: in upgrade mode the first cache lookup for the input
tag returns no entry (as the claim says), the upgrade step substitutes
the target tag `v4.2.0`, the cache holds an entry for
`actions/checkout@v4.2.0` — and yet `fetch_tag_details` does not return
that cached pair: the second lookup also passes `check_for_updates`
to `get_cached_details`, which then always returns `None`, so the
function proceeds to a fresh ref lookup and returns the fresh sha
instead of the cached one. -/
theorem c1_second_lookup_never_honored :
    get_cached_details cacheC1 "actions/checkout" "v4.0.0" true = none ∧
    get_latest_version envC1 "actions/checkout" "v4.0.0" = "v4.2.0" ∧
    cacheFind cacheC1 "actions/checkout@v4.2.0" =
      some ("2222222222222222222222222222222222222222", "v4.2.0") ∧
    get_cached_details cacheC1 "actions/checkout" "v4.2.0" true = none ∧
    (fetch_tag_details envC1 cacheC1 "actions/checkout" "v4.0.0" true).1 =
      some ("1111111111111111111111111111111111111111", "v4.2.0") ∧
    ("1111111111111111111111111111111111111111", "v4.2.0") ≠
      ("2222222222222222222222222222222222222222", ("v4.2.0" : String)) := by
  refine ⟨rfl, by decide, rfl, rfl, by decide, by decide⟩

/-! ## Claim C2 -/

/-- C2 counterexample: the target tag `v1` appears exactly in the
repository tags list, yet the display version of the successful
resolution is `v1.9.3`, not `v1`: `get_exact_tag_match` returns its
input on every path, so the exact hit cannot short-circuit the
latest-release substitution. -/
theorem c2_exact_match_not_honored :
    envC2.tagsList "octo/tool" = some ["v1"] ∧
    (fetch_tag_details envC2 [] "octo/tool" "v1" false).1 =
      some ("3333333333333333333333333333333333333333", "v1.9.3") ∧
    ("v1.9.3" : String) ≠ "v1" := by
  refine ⟨rfl, by decide, by decide⟩

/-- C2 amended: the display version of a resolution whose commit-hash
lookup succeeds is determined solely by the latest-release rule applied
to the target tag — the tags-list scan cannot affect it, because
`get_exact_tag_match` returns the target tag whether or not an exact
match exists.  The display string is the latest-release tag whenever
the target tag starts with `v`, is at most 3 characters, and the
latest-release tag extends it; otherwise the target tag unchanged. -/
theorem c2_amended_display_rule :
    (∀ env repo tag, get_exact_tag_match env repo tag = tag) ∧
    (∀ env repo tag, get_latest_release_tag env repo tag =
      if "v".data.isPrefixOf tag.data ∧ tag.data.length ≤ 3 then
        match env.latestRelease repo with
        | some latest => if tag.data.isPrefixOf latest.data then latest else tag
        | none => tag
      else tag) ∧
    (∀ env cache repo tag cfu sha,
      get_cached_details cache repo tag cfu = none →
      get_tag_sha env repo (if cfu then get_latest_version env repo tag else tag) =
        some sha →
      sha ≠ "" →
      (fetch_tag_details env cache repo tag cfu).1 =
        some (sha, get_latest_release_tag env repo
          (if cfu then get_latest_version env repo tag else tag))) := by
  refine ⟨get_exact_tag_match_eq, ?_, ?_⟩
  · intro env repo tag
    unfold get_latest_release_tag
    by_cases h1 : "v".data.isPrefixOf tag.data
    · by_cases h2 : tag.data.length > 3
      · rw [if_pos (Or.inr h2), if_neg (fun hcon => absurd hcon.2 (Nat.not_le.mpr h2))]
      · rw [if_neg (fun hcon => hcon.elim (fun hn => hn h1) (fun hgt => h2 hgt)),
          if_pos ⟨h1, Nat.not_lt.mp h2⟩]
        cases env.latestRelease repo with
        | none => rfl
        | some latest =>
          by_cases h3 : tag.data.isPrefixOf latest.data
          · simp [h3]
          · simp [h3]
    · rw [if_pos (Or.inl h1), if_neg (fun hcon => h1 hcon.1)]
  · intro env cache repo tag cfu sha hc1 hs hne
    cases cfu with
    | false =>
      unfold fetch_tag_details
      rw [hc1]
      dsimp only
      rw [hs]
      dsimp only
      rw [if_neg hne, get_exact_tag_match_eq]
      simp
    | true =>
      unfold fetch_tag_details
      rw [hc1]
      simp only [eq_self_iff_true, if_true, true_and] at hs ⊢
      have hsec : (if get_latest_version env repo tag ≠ tag then
          get_cached_details cache repo (get_latest_version env repo tag) true
          else none) = none := by
        by_cases h : get_latest_version env repo tag ≠ tag
        · rw [if_pos h]
          exact get_cached_details_true cache repo (get_latest_version env repo tag)
        · rw [if_neg (by simp [h])]
      rw [hsec]
      dsimp only
      rw [hs]
      dsimp only
      rw [if_neg hne, get_exact_tag_match_eq]
      simp

/-- Witness for the amended C2: a concrete successful resolution of the
short alias `v1` displays the latest-release tag. -/
theorem c2_amended_witness :
    (fetch_tag_details envC2 [] "octo/tool" "v1" false).1 =
      some ("3333333333333333333333333333333333333333",
        get_latest_release_tag envC2 "octo/tool"
          (if false then get_latest_version envC2 "octo/tool" "v1" else "v1")) :=
  c2_amended_display_rule.2.2 envC2 [] "octo/tool" "v1" false
    "3333333333333333333333333333333333333333" (by decide) (by decide) (by decide)

/-! ## Claim C3 -/

/-- C3 counterexample: a line containing the same unpinned reference
twice.  The first match determines the resolution, but `str.replace`
rewrites every occurrence of `a/b@v1`, so the second occurrence is not
left unchanged, contradicting the claim. -/
theorem c3_second_occurrence_rewritten :
    (process_line envC3 [] false "uses: a/b@v1 a/b@v1".data).1 =
      ("uses: a/b@aaaabbbbccccddddeeeeffff0000111122223333 # v1 " ++
        "a/b@aaaabbbbccccddddeeeeffff0000111122223333 # v1").data ∧
    (process_line envC3 [] false "uses: a/b@v1 a/b@v1".data).1 ≠
      "uses: a/b@aaaabbbbccccddddeeeeffff0000111122223333 # v1 a/b@v1".data := by
  refine ⟨by decide, by decide⟩

/-- Resolution of `a/b@v1` against `envSha sha` with an empty cache:
succeeds with the sha and display version `v1`. -/
theorem fetch_envSha (sha : String) (hne : sha ≠ "") :
    fetch_tag_details (envSha sha) [] (String.mk "a/b".data) (String.mk "v1".data)
      false = (some (sha, "v1"), [("a/b@v1", sha, "v1")]) := by
  have h0 : fetch_tag_details (envSha sha) [] (String.mk "a/b".data)
      (String.mk "v1".data) false =
      if sha = "" then (none, []) else (some (sha, "v1"), [("a/b@v1", sha, "v1")]) := rfl
  rw [h0, if_neg hne]

/-- Resolution of the comment version `v1` against `envPin sha latest`
in update mode: `v1` does not parse as semver, so the target stays `v1`;
the display version is the latest release tag when it extends `v1`. -/
theorem fetch_envPin (sha latest : String) (hne : sha ≠ "")
    (hpre : "v1".data.isPrefixOf latest.data = true) :
    fetch_tag_details (envPin sha latest) [] (String.mk "a/b".data)
      (String.mk "v1".data) true = (some (sha, latest), [("a/b@v1", sha, latest)]) := by
  have h0 : fetch_tag_details (envPin sha latest) [] (String.mk "a/b".data)
      (String.mk "v1".data) true =
      if sha = "" then (none, []) else
        (some (sha, if ¬ ("v1".data.isPrefixOf latest.data) then String.mk "v1".data
            else latest),
         [("a/b@v1", sha, if ¬ ("v1".data.isPrefixOf latest.data) then String.mk "v1".data
            else latest)]) := rfl
  rw [h0, if_neg hne]
  simp [hpre]

/-- C3 amended: only the first syntactically matched occurrence
determines which reference is resolved, but the substitution is then
applied to the whole line: the unpinned path replaces every occurrence
of the matched `repo@tag` substring (`str.replace`), and the pinned
path replaces every match of the pinned pattern (`re.sub`) with the
replacement built from the first match.  Demonstrated on two-reference
lines for every successful resolution result. -/
theorem c3_amended_all_occurrences :
    (∀ sha : String, sha ≠ "" →
      process_line (envSha sha) [] false "uses: a/b@v1 a/b@v1".data =
        ("uses: a/b@".data ++ ((sha.data ++ " # v1".data) ++
          (" a/b@".data ++ ((sha.data ++ " # v1".data) ++ ([] : List Char)))),
         true, [("a/b@v1", sha, "v1")])) ∧
    (∀ sha latest : String, sha ≠ "" →
      "v1".data.isPrefixOf latest.data = true → latest ≠ "v1" →
      process_line (envPin sha latest) [] true
        ("uses: a/b@aaaabbbbccccddddeeeeffff0000111122223333 # v1 " ++
          "and c/d@9999888877776666555544443333222211110000 # v2 ok").data =
        ("uses: a/b@".data ++ ((sha.data ++ (" # ".data ++ latest.data)) ++
          (" and a/b@".data ++ ((sha.data ++ (" # ".data ++ latest.data)) ++ " ok".data))),
         true, [("a/b@v1", sha, latest)])) := by
  constructor
  · intro sha hne
    have hp : is_pinned_action "uses: a/b@v1 a/b@v1".data = false := by decide
    have hsearch : search_unpinned "uses: a/b@v1 a/b@v1".data =
        some ("a/b".data, "v1".data) := by decide
    unfold process_line
    rw [hp]
    simp only [Bool.false_eq_true, if_false]
    unfold process_unpinned_action
    rw [hsearch]
    dsimp only
    rw [fetch_envSha sha hne]
    dsimp only
    rw [if_neg hne]
    rfl
  · intro sha latest hne hpre hne2
    have hp : is_pinned_action
        ("uses: a/b@aaaabbbbccccddddeeeeffff0000111122223333 # v1 " ++
          "and c/d@9999888877776666555544443333222211110000 # v2 ok").data = true := by
      decide
    have hsearch : search_pinned
        ("uses: a/b@aaaabbbbccccddddeeeeffff0000111122223333 # v1 " ++
          "and c/d@9999888877776666555544443333222211110000 # v2 ok").data =
        some ("a/b".data, "aaaabbbbccccddddeeeeffff0000111122223333".data,
          "v1".data) := by decide
    unfold process_line
    rw [hp]
    simp only [if_true]
    unfold process_pinned_action
    simp only [Bool.true_eq_false, if_false]
    rw [hsearch]
    dsimp only
    rw [fetch_envPin sha latest hne hpre]
    dsimp only
    rw [if_neg (fun hcon => hcon.elim (fun h => hne h) (fun h => hne2 h))]
    rfl

/-- Witness for the amended C3 with concrete resolution results. -/
theorem c3_amended_witness :
    process_line (envSha "4444555566667777888899990000aaaabbbbcccc") [] false
      "uses: a/b@v1 a/b@v1".data =
      ("uses: a/b@".data ++
        (("4444555566667777888899990000aaaabbbbcccc".data ++ " # v1".data) ++
          (" a/b@".data ++
            (("4444555566667777888899990000aaaabbbbcccc".data ++ " # v1".data) ++
              ([] : List Char)))),
       true, [("a/b@v1", "4444555566667777888899990000aaaabbbbcccc", "v1")]) :=
  c3_amended_all_occurrences.1 "4444555566667777888899990000aaaabbbbcccc" (by decide)

/-! ## Claim C4 -/

/-- Invariant of the release loop: the fold either keeps the
accumulator with no candidate seen, or ends on a candidate (or the
initial accumulator) that no candidate in the list strictly exceeds. -/
theorem latest_fold (cur : SemVer) :
    ∀ (l : List String) (a : String × Option SemVer),
      (∀ p, a.2 = some p → parse_semver a.1 = some p ∧ p.major = cur.major) →
      (l.foldl (latestStep cur) a = a ∧ l.filter (sameMajor cur) = []) ∨
      (∃ p, (l.foldl (latestStep cur) a).2 = some p ∧
        parse_semver (l.foldl (latestStep cur) a).1 = some p ∧
        p.major = cur.major ∧
        ((l.foldl (latestStep cur) a).1 ∈ l.filter (sameMajor cur) ∨
          l.foldl (latestStep cur) a = a) ∧
        (∀ t ∈ l.filter (sameMajor cur), ∀ q, parse_semver t = some q →
          ¬ semverGt q p) ∧
        (∀ p0, a.2 = some p0 → ¬ semverGt p0 p)) := by
  intro l
  induction l with
  | nil =>
    intro a hbase
    exact Or.inl ⟨rfl, rfl⟩
  | cons t l ih =>
    intro a hbase
    simp only [List.foldl_cons]
    cases hpt : parse_semver t with
    | none =>
      have hstep : latestStep cur a t = a := by
        unfold latestStep
        rw [hpt]
      have hfil : (t :: l).filter (sameMajor cur) = l.filter (sameMajor cur) := by
        simp [List.filter_cons, sameMajor, hpt]
      rw [hstep, hfil]
      exact ih a hbase
    | some q =>
      by_cases hmaj : q.major = cur.major
      · have hfil : (t :: l).filter (sameMajor cur) = t :: l.filter (sameMajor cur) := by
          simp [List.filter_cons, sameMajor, hpt, hmaj]
        rw [hfil]
        cases ha : a.2 with
        | none =>
          have hstep : latestStep cur a t = (t, some q) := by
            unfold latestStep
            rw [hpt, ha]
            simp [hmaj]
          rw [hstep]
          have hb1 : ∀ p, ((t, some q) : String × Option SemVer).2 = some p →
              parse_semver t = some p ∧ p.major = cur.major := by
            intro p hp
            have hqp : q = p := by simpa using hp
            subst hqp
            exact ⟨hpt, hmaj⟩
          rcases ih (t, some q) hb1 with ⟨heq, hfl⟩ | ⟨p, h2, h3, h4, h5, h6, h7⟩
          · right
            refine ⟨q, by rw [heq], by rw [heq]; exact hpt, hmaj, ?_, ?_, ?_⟩
            · rw [heq]
              exact Or.inl (List.mem_cons_self t _)
            · intro t0 ht0 q0 hq0
              rcases List.mem_cons.mp ht0 with h | h
              · subst h
                have : q0 = q := by rw [hpt] at hq0; exact (Option.some.inj hq0).symm
                subst this
                exact semverGt_irrefl q0
              · rw [hfl] at h
                cases h
            · intro p0 hp0
              cases hp0
          · right
            refine ⟨p, h2, h3, h4, ?_, ?_, ?_⟩
            · rcases h5 with h5 | h5
              · exact Or.inl (List.mem_cons_of_mem t h5)
              · rw [h5]
                exact Or.inl (List.mem_cons_self t _)
            · intro t0 ht0 q0 hq0
              rcases List.mem_cons.mp ht0 with h | h
              · subst h
                have : q0 = q := by rw [hpt] at hq0; exact (Option.some.inj hq0).symm
                subst this
                exact h7 q0 rfl
              · exact h6 t0 h q0 hq0
            · intro p0 hp0
              cases hp0
        | some p0 =>
          obtain ⟨hpa, hma⟩ := hbase p0 ha
          by_cases hgt : semverGt q p0
          · have hstep : latestStep cur a t = (t, some q) := by
              unfold latestStep
              rw [hpt, ha]
              simp [hmaj, hgt]
            rw [hstep]
            have hb1 : ∀ p, ((t, some q) : String × Option SemVer).2 = some p →
                parse_semver t = some p ∧ p.major = cur.major := by
              intro p hp
              have hqp : q = p := by simpa using hp
              subst hqp
              exact ⟨hpt, hmaj⟩
            rcases ih (t, some q) hb1 with ⟨heq, hfl⟩ | ⟨p, h2, h3, h4, h5, h6, h7⟩
            · right
              refine ⟨q, by rw [heq], by rw [heq]; exact hpt, hmaj, ?_, ?_, ?_⟩
              · rw [heq]
                exact Or.inl (List.mem_cons_self t _)
              · intro t0 ht0 q0 hq0
                rcases List.mem_cons.mp ht0 with h | h
                · subst h
                  have : q0 = q := by rw [hpt] at hq0; exact (Option.some.inj hq0).symm
                  subst this
                  exact semverGt_irrefl q0
                · rw [hfl] at h
                  cases h
              · intro p1 hp1
                have : p0 = p1 := Option.some.inj hp1
                subst this
                exact semverGt_asymm hgt
            · right
              refine ⟨p, h2, h3, h4, ?_, ?_, ?_⟩
              · rcases h5 with h5 | h5
                · exact Or.inl (List.mem_cons_of_mem t h5)
                · rw [h5]
                  exact Or.inl (List.mem_cons_self t _)
              · intro t0 ht0 q0 hq0
                rcases List.mem_cons.mp ht0 with h | h
                · subst h
                  have : q0 = q := by rw [hpt] at hq0; exact (Option.some.inj hq0).symm
                  subst this
                  exact h7 q0 rfl
                · exact h6 t0 h q0 hq0
              · intro p1 hp1
                have : p0 = p1 := Option.some.inj hp1
                subst this
                intro hcon
                exact h7 q rfl (semverGt_trans hgt hcon)
          · have hstep : latestStep cur a t = a := by
              unfold latestStep
              rw [hpt, ha]
              simp [hmaj, hgt]
            rw [hstep]
            rcases ih a hbase with ⟨heq, hfl⟩ | ⟨p, h2, h3, h4, h5, h6, h7⟩
            · right
              refine ⟨p0, by rw [heq]; exact ha, by rw [heq]; exact hpa, hma, Or.inr heq,
                ?_, ?_⟩
              · intro t0 ht0 q0 hq0
                rcases List.mem_cons.mp ht0 with h | h
                · subst h
                  have : q0 = q := by rw [hpt] at hq0; exact (Option.some.inj hq0).symm
                  subst this
                  exact hgt
                · rw [hfl] at h
                  cases h
              · intro p1 hp1
                have hp01 : p0 = p1 := Option.some.inj hp1
                subst hp01
                exact semverGt_irrefl p0
            · right
              refine ⟨p, h2, h3, h4, ?_, ?_, fun p1 hp1 => h7 p1 (ha.trans hp1)⟩
              · rcases h5 with h5 | h5
                · exact Or.inl (List.mem_cons_of_mem t h5)
                · exact Or.inr h5
              · intro t0 ht0 q0 hq0
                rcases List.mem_cons.mp ht0 with h | h
                · subst h
                  have : q0 = q := by rw [hpt] at hq0; exact (Option.some.inj hq0).symm
                  subst this
                  exact semverNgt_trans hgt (h7 p0 ha)
                · exact h6 t0 h q0 hq0
      · have hstep : latestStep cur a t = a := by
          unfold latestStep
          rw [hpt]
          simp [hmaj]
        have hfil : (t :: l).filter (sameMajor cur) = l.filter (sameMajor cur) := by
          simp [List.filter_cons, sameMajor, hpt, hmaj]
        rw [hstep, hfil]
        exact ih a hbase

/-- C4: when the input tag parses as a semantic version, the upgrade
step returns a release tag of the same major series that no same-major
parseable release strictly exceeds in semver precedence — a release of
a different major is never selected — and returns the input tag
unchanged when the releases list is empty, unreachable (both give the
empty list through `fetch_json(...) or []`), or holds no same-major
parseable release. -/
theorem c4_latest_version_same_major_max (env : Env) (repo tag : String)
    (cur : SemVer) (hp : parse_semver tag = some cur) :
    ((get_all_releases env repo).filter (sameMajor cur) = [] →
      get_latest_version env repo tag = tag) ∧
    ((get_all_releases env repo).filter (sameMajor cur) ≠ [] →
      get_latest_version env repo tag ∈
        (get_all_releases env repo).filter (sameMajor cur) ∧
      ∃ p, parse_semver (get_latest_version env repo tag) = some p ∧
        p.major = cur.major ∧
        ∀ t ∈ (get_all_releases env repo).filter (sameMajor cur), ∀ q,
          parse_semver t = some q → ¬ semverGt q p) := by
  unfold get_latest_version
  rw [hp]
  dsimp only
  by_cases hempty : (get_all_releases env repo).isEmpty
  · have hnil : get_all_releases env repo = [] := List.isEmpty_iff.mp hempty
    rw [hempty]
    constructor
    · intro _
      rfl
    · intro hne
      exact absurd (by rw [hnil]; rfl) hne
  · rw [if_neg (by simpa using hempty)]
    rcases latest_fold cur (get_all_releases env repo) (tag, none)
        (fun p hp0 => by cases hp0) with ⟨heq, hfl⟩ | ⟨p, h2, h3, h4, h5, h6, h7⟩
    · constructor
      · intro _
        rw [heq]
      · intro hne
        exact absurd hfl hne
    · constructor
      · intro hfl
        rcases h5 with h5 | h5
        · rw [hfl] at h5
          cases h5
        · rw [h5] at h2
          cases h2
      · intro hne
        rcases h5 with h5 | h5
        · exact ⟨h5, p, h3, h4, h6⟩
        · rw [h5] at h2
          cases h2

/-- Witness for C4: with input `v4.0.0` the upgrade step selects a
member of the major-4 candidates; concretely it returns `v4.2.0`, not
the major-5 release `v5.0.0`. -/
theorem c4_witness :
    (get_latest_version envC4 "actions/checkout" "v4.0.0" ∈
      (get_all_releases envC4 "actions/checkout").filter
        (sameMajor ⟨4, 0, 0, [], []⟩)) ∧
    get_latest_version envC4 "actions/checkout" "v4.0.0" = "v4.2.0" :=
  ⟨((c4_latest_version_same_major_max envC4 "actions/checkout" "v4.0.0"
      ⟨4, 0, 0, [], []⟩ (by decide)).2 (by decide)).1,
   by decide⟩

/-! ## Claim C10 -/

theorem normTerms_r_other (c2 : Char) (r2 : List Char) (h2 : c2 ≠ '\n') :
    normTerms ('\r' :: c2 :: r2) = '\n' :: normTerms (c2 :: r2) := by
  simp [normTerms, h2]

theorem normTerms_not_cr (c : Char) (rest : List Char) (hr : c ≠ '\r') :
    normTerms (c :: rest) =
      (if isLineBoundary c then '\n' :: normTerms rest else c :: normTerms rest) := by
  cases rest with
  | nil => simp [normTerms, hr]
  | cons d r =>
    by_cases hd : d = '\n'
    · subst hd
      simp [normTerms, hr]
    · simp [normTerms, hr, hd]

theorem chopLF_cons (c : Char) (rest : List Char) (h : rest ≠ []) :
    chopLF (c :: rest) = c :: chopLF rest := by
  cases rest with
  | nil => exact absurd rfl h
  | cons d r => rfl

theorem chopLF_append (a x : List Char) (hx : x ≠ []) :
    chopLF (a ++ x) = a ++ chopLF x := by
  induction a with
  | nil => rfl
  | cons c a ih =>
    have hne : a ++ x ≠ [] := by
      intro hcon
      exact hx (List.append_eq_nil.mp hcon).2
    rw [List.cons_append, chopLF_cons c (a ++ x) hne, ih]
    rfl

theorem breakLine_none (cs : List Char) :
    ∀ l, breakLine cs = (l, none) →
      l = cs ∧ ∀ c ∈ cs, c ≠ '\r' ∧ isLineBoundary c = false := by
  induction cs with
  | nil =>
    intro l h
    have hl : l = [] := by
      have := congrArg Prod.fst h
      simpa using this.symm
    exact ⟨hl, by simp⟩
  | cons c rest ih =>
    intro l h
    unfold breakLine at h
    by_cases hr : c = '\r'
    · rw [if_pos hr] at h
      split at h <;> simp at h
    · rw [if_neg hr] at h
      by_cases hb : isLineBoundary c
      · rw [if_pos hb] at h
        simp at h
      · rw [if_neg hb] at h
        cases hbr : breakLine rest with
        | mk l2 o =>
          rw [hbr] at h
          have ho : o = none := by
            have := congrArg Prod.snd h
            simpa using this
          have hl : l = c :: l2 := by
            have := congrArg Prod.fst h
            simpa using this.symm
          subst ho
          obtain ⟨hl2, hmem⟩ := ih l2 hbr
          subst hl2
          refine ⟨hl, ?_⟩
          intro c0 hc0
          rcases List.mem_cons.mp hc0 with hc0 | hc0
          · subst hc0
            exact ⟨hr, by simpa using hb⟩
          · exact hmem c0 hc0

theorem breakLine_some (cs : List Char) :
    ∀ l rest, breakLine cs = (l, some rest) →
      normTerms cs = l ++ '\n' :: normTerms rest ∧ rest.length < cs.length := by
  induction cs with
  | nil =>
    intro l rest h
    simp [breakLine] at h
  | cons c cs ih =>
    intro l rest h
    unfold breakLine at h
    by_cases hr : c = '\r'
    · rw [if_pos hr] at h
      subst hr
      cases cs with
      | nil =>
        simp only at h
        have hl : l = [] := by
          have := congrArg Prod.fst h
          simpa using this.symm
        have hrest : rest = [] := by
          have := congrArg Prod.snd h
          simpa using this.symm
        subst hl
        subst hrest
        constructor
        · rfl
        · simp
      | cons c2 r2 =>
        by_cases h2 : c2 = '\n'
        · subst h2
          simp only at h
          have hl : l = [] := by
            have := congrArg Prod.fst h
            simpa using this.symm
          have hrest : rest = r2 := by
            have := congrArg Prod.snd h
            simpa using this.symm
          subst hl
          subst hrest
          constructor
          · rfl
          · simp only [List.length_cons]
            omega
        · have harm : (match c2 :: r2 with
              | '\n' :: rest2 => (([] : List Char), some rest2)
              | _ => (([] : List Char), some (c2 :: r2))) =
              (([] : List Char), some (c2 :: r2)) := by
            split
            · rename_i heq
              rw [List.cons.injEq] at heq
              exact absurd heq.1 h2
            · rfl
          rw [harm] at h
          have hl : l = [] := by
            have := congrArg Prod.fst h
            simpa using this.symm
          have hrest : rest = c2 :: r2 := by
            have := congrArg Prod.snd h
            simpa using this.symm
          subst hl
          subst hrest
          constructor
          · exact normTerms_r_other c2 r2 h2
          · simp
    · rw [if_neg hr] at h
      by_cases hb : isLineBoundary c
      · rw [if_pos hb] at h
        have hl : l = [] := by
          have := congrArg Prod.fst h
          simpa using this.symm
        have hrest : rest = cs := by
          have := congrArg Prod.snd h
          simpa using this.symm
        subst hl
        subst hrest
        constructor
        · show normTerms (c :: rest) = [] ++ '\n' :: normTerms rest
          rw [normTerms_not_cr c rest hr, if_pos hb]
          rfl
        · simp
      · rw [if_neg hb] at h
        cases hbr : breakLine cs with
        | mk l2 o =>
          rw [hbr] at h
          have ho : o = some rest := by
            have := congrArg Prod.snd h
            simpa using this
          have hl : l = c :: l2 := by
            have := congrArg Prod.fst h
            simpa using this.symm
          subst ho
          subst hl
          obtain ⟨hn, hlen⟩ := ih l2 rest hbr
          constructor
          · show normTerms (c :: cs) = (c :: l2) ++ '\n' :: normTerms rest
            rw [normTerms_not_cr c cs hr, if_neg hb, hn]
            rfl
          · simp only [List.length_cons]
            omega

theorem normTerms_id_of_no_boundary (cs : List Char) :
    (∀ c ∈ cs, c ≠ '\r' ∧ isLineBoundary c = false) → normTerms cs = cs := by
  induction cs with
  | nil => intro _; rfl
  | cons c rest ih =>
    intro h
    obtain ⟨hr, hb⟩ := h c (List.mem_cons_self c rest)
    rw [normTerms_not_cr c rest hr, if_neg (by simp [hb])]
    rw [ih (fun c0 hc0 => h c0 (List.mem_cons_of_mem c hc0))]

theorem chopLF_id_of_no_boundary (cs : List Char) :
    (∀ c ∈ cs, isLineBoundary c = false) → chopLF cs = cs := by
  induction cs with
  | nil => intro _; rfl
  | cons c rest ih =>
    intro h
    cases rest with
    | nil =>
      have hb := h c (List.mem_cons_self c [])
      have hc : c ≠ '\n' := by
        intro hcon
        subst hcon
        simp [isLineBoundary] at hb
      show (if c = '\n' then [] else [c]) = [c]
      rw [if_neg hc]
    | cons d r =>
      rw [chopLF_cons c (d :: r) (by simp)]
      rw [ih (fun c0 hc0 => h c0 (List.mem_cons_of_mem c hc0))]

theorem normTerms_ne_nil (c : Char) (rest : List Char) :
    normTerms (c :: rest) ≠ [] := by
  by_cases hr : c = '\r'
  · subst hr
    cases rest with
    | nil => simp [normTerms]
    | cons d r =>
      by_cases hd : d = '\n'
      · subst hd
        simp [normTerms]
      · rw [normTerms_r_other d r hd]
        simp
  · rw [normTerms_not_cr c rest hr]
    by_cases hb : isLineBoundary c <;> simp [hb]

theorem splitlinesF_nil_eq (fuel : Nat) : splitlinesF fuel [] = [] := by
  cases fuel with
  | zero => rfl
  | succ f => rfl

theorem joinLF_cons_ne (l : List Char) (ls : List (List Char)) (h : ls ≠ []) :
    joinLF (l :: ls) = l ++ '\n' :: joinLF ls := by
  cases ls with
  | nil => exact absurd rfl h
  | cons l2 ls2 => rfl

theorem splitlinesF_ne_nil (fuel : Nat) (cs : List Char) (hne : cs ≠ [])
    (hf : cs.length < fuel) : splitlinesF fuel cs ≠ [] := by
  cases fuel with
  | zero => omega
  | succ f =>
    unfold splitlinesF
    cases hbr : breakLine cs with
    | mk l o =>
      cases o with
      | none =>
        obtain ⟨hl, _⟩ := breakLine_none cs l hbr
        subst hl
        simp [List.isEmpty_iff, hne]
      | some rest => simp

/-- Joining the split lines with `\n` replaces every terminator of the
original text by `\n` and drops one trailing terminator. -/
theorem joinLF_splitlinesF (fuel : Nat) :
    ∀ cs : List Char, cs.length < fuel →
      joinLF (splitlinesF fuel cs) = chopLF (normTerms cs) := by
  induction fuel with
  | zero =>
    intro cs h
    omega
  | succ f ih =>
    intro cs h
    unfold splitlinesF
    cases hbr : breakLine cs with
    | mk l o =>
      cases o with
      | none =>
        obtain ⟨hl, hnb⟩ := breakLine_none cs l hbr
        dsimp only
        rw [hl, normTerms_id_of_no_boundary cs hnb,
          chopLF_id_of_no_boundary cs (fun c hc => (hnb c hc).2)]
        cases cs with
        | nil => rfl
        | cons c rest => rfl
      | some rest =>
        obtain ⟨hnorm, hlen⟩ := breakLine_some cs l rest hbr
        dsimp only
        rw [hnorm]
        by_cases hrest : rest = []
        · subst hrest
          rw [splitlinesF_nil_eq]
          show l = chopLF (l ++ '\n' :: normTerms [])
          rw [show ('\n' :: normTerms [] : List Char) = ['\n'] from rfl]
          rw [chopLF_append l ['\n'] (by simp)]
          show l = l ++ []
          rw [List.append_nil]
        · have hf2 : rest.length < f := by omega
          rw [joinLF_cons_ne l _ (splitlinesF_ne_nil f rest hrest hf2), ih rest hf2]
          cases hrest2 : normTerms rest with
          | nil => exact absurd hrest2 (by cases rest with
              | nil => exact absurd rfl hrest
              | cons c r => exact normTerms_ne_nil c r)
          | cons n0 nrest =>
            rw [show l ++ '\n' :: n0 :: nrest = (l ++ ['\n']) ++ n0 :: nrest by simp]
            rw [chopLF_append (l ++ ['\n']) (n0 :: nrest) (by simp)]
            simp

/-- C10: when at least one line changed, the written content is the
newline-join of the per-line rewrite results of `splitlines`; joining
the split lines replaces every `\r\n`, `\r` (and other splitlines
boundary) terminator of the original content by `\n` and drops the
trailing terminator — independent of which lines were rewritten — and a
line whose rewrite reported no change passes through verbatim. -/
theorem c10_written_content_normalized :
    (∀ env cache cfu content,
      (processLines env cfu cache (splitlines content)).1.any (fun p => p.2) = true →
      (process_workflow_file env cache cfu content).1 =
        some (joinLF ((processLines env cfu cache (splitlines content)).1.map
          (fun p => p.1)))) ∧
    (∀ cs : List Char, joinLF (splitlines cs) = chopLF (normTerms cs)) ∧
    (∀ env cache cfu line, (process_line env cache cfu line).2.1 = false →
      (process_line env cache cfu line).1 = line) := by
  refine ⟨?_, ?_, process_line_false_id⟩
  · intro env cache cfu content hany
    unfold process_workflow_file
    simp [hany]
  · intro cs
    exact joinLF_splitlinesF (cs.length + 1) cs (Nat.lt_succ_self _)

/-- Witness for C10: a concrete file whose first line is rewritten; the
written content is the join of the rewrite results. -/
theorem c10_witness :
    (process_workflow_file envC3 [] false "uses: a/b@v1\r\nok: x\n".data).1 =
      some (joinLF ((processLines envC3 false []
        (splitlines "uses: a/b@v1\r\nok: x\n".data)).1.map (fun p => p.1))) :=
  c10_written_content_normalized.1 envC3 [] false "uses: a/b@v1\r\nok: x\n".data
    (by decide)
